import Mathlib

/-!
Verification of the core components of the cbnsl_benchmark repository:
the CPDAG structural classifier with its F1/TPR metrics
(src/metrics/F1ScoreMetric.py, src/metrics/TPRMetric.py), the Hartemink
discretizer and mutual-information estimator (src/preprocessing/hartemink.py),
the grid-search engine (src/analysis/GridSearch.py) and the Pareto selector
(src/analysis/ParetoSelector.py).

Python floats are modelled with exact arithmetic: rationals for the metric
and score computations (which only add, divide and compare), reals for the
mutual-information estimator (which takes logarithms).
-/

namespace Cbnsl

/-! ### CPDAG structural classifier (src/metrics/F1ScoreMetric.py)

A pyAgrum `MixedGraph` is modelled by its arc set and its edge set.
`arcs()` enumerates ordered pairs (tail, head); `edges()` enumerates each
undirected edge once, as a representative ordered pair, and
`existsEdge(a, b)` is symmetric in its arguments. -/

structure MixedGraph where
  arcs : Finset (Nat × Nat)
  edges : Finset (Nat × Nat)
deriving DecidableEq

/-- Model of `gum.MixedGraph.existsArc(t, h)`. -/
def existsArc (g : MixedGraph) (t h : Nat) : Prop :=
  (t, h) ∈ g.arcs

/-- Model of `gum.MixedGraph.existsEdge(a, b)` (symmetric). -/
def existsEdge (g : MixedGraph) (a b : Nat) : Prop :=
  (a, b) ∈ g.edges ∨ (b, a) ∈ g.edges

instance (g : MixedGraph) (t h : Nat) : Decidable (existsArc g t h) := by
  unfold existsArc; infer_instance

instance (g : MixedGraph) (a b : Nat) : Decidable (existsEdge g a b) := by
  unfold existsEdge; infer_instance

/-- Ref arcs found with the exact direction in test (`true_arc`). -/
def true_arc (ref test : MixedGraph) : Nat :=
  (ref.arcs.filter (fun a => existsArc test a.1 a.2)).card

/-- Ref arcs whose reversal is a test arc (`misoriented_arc`). -/
def misoriented_arc (ref test : MixedGraph) : Nat :=
  (ref.arcs.filter (fun a =>
    ¬ existsArc test a.1 a.2 ∧ existsArc test a.2 a.1)).card

/-- Ref arcs present as an edge in test (`wrong_edge_arc`). -/
def wrong_edge_arc (ref test : MixedGraph) : Nat :=
  (ref.arcs.filter (fun a =>
    ¬ existsArc test a.1 a.2 ∧ ¬ existsArc test a.2 a.1 ∧
      existsEdge test a.1 a.2)).card

/-- Ref arcs completely absent from test (`wrong_none_arc`). -/
def wrong_none_arc (ref test : MixedGraph) : Nat :=
  (ref.arcs.filter (fun a =>
    ¬ existsArc test a.1 a.2 ∧ ¬ existsArc test a.2 a.1 ∧
      ¬ existsEdge test a.1 a.2)).card

/-- Ref edges matched by a test edge (`true_edge`). -/
def true_edge (ref test : MixedGraph) : Nat :=
  (ref.edges.filter (fun e => existsEdge test e.1 e.2)).card

/-- Ref edges present as an arc (either direction) in test (`wrong_arc_edge`). -/
def wrong_arc_edge (ref test : MixedGraph) : Nat :=
  (ref.edges.filter (fun e =>
    ¬ existsEdge test e.1 e.2 ∧
      (existsArc test e.1 e.2 ∨ existsArc test e.2 e.1))).card

/-- Ref edges completely absent from test (`wrong_none_edge`). -/
def wrong_none_edge (ref test : MixedGraph) : Nat :=
  (ref.edges.filter (fun e =>
    ¬ existsEdge test e.1 e.2 ∧
      ¬ (existsArc test e.1 e.2 ∨ existsArc test e.2 e.1))).card

/-- Test arcs not present in ref as arc (either direction) or edge
(`wrong_arc_none`). -/
def wrong_arc_none (ref test : MixedGraph) : Nat :=
  (test.arcs.filter (fun a =>
    ¬ existsArc ref a.1 a.2 ∧ ¬ existsArc ref a.2 a.1 ∧
      ¬ existsEdge ref a.1 a.2)).card

/-- Test edges not present in ref as edge or arc (either direction)
(`wrong_edge_none`). -/
def wrong_edge_none (ref test : MixedGraph) : Nat :=
  (test.edges.filter (fun e =>
    ¬ existsEdge ref e.1 e.2 ∧ ¬ existsArc ref e.1 e.2 ∧
      ¬ existsArc ref e.2 e.1)).card

/-- Model of `count_tp_fp_fn` (F1ScoreMetric.py, lines 21-91):
returns the tuple (tp, fp, fn). -/
def count_tp_fp_fn (ref test : MixedGraph) : Nat × Nat × Nat :=
  (true_arc ref test + true_edge ref test,
   misoriented_arc ref test + wrong_edge_arc ref test + wrong_arc_edge ref test
     + wrong_arc_none ref test + wrong_edge_none ref test,
   wrong_none_arc ref test + wrong_none_edge ref test)

/-- Precision as computed in `F1ScoreMetric.compute`:
`tp / (tp + fp) if (tp + fp) > 0 else 0.0`. -/
def precisionOf (tp fp : Nat) : ℚ :=
  if 0 < tp + fp then (tp : ℚ) / ((tp : ℚ) + (fp : ℚ)) else 0

/-- Recall as computed in `F1ScoreMetric.compute`:
`tp / (tp + fn) if (tp + fn) > 0 else 0.0`. -/
def recallOf (tp fn : Nat) : ℚ :=
  if 0 < tp + fn then (tp : ℚ) / ((tp : ℚ) + (fn : ℚ)) else 0

/-- F1 combination step of `F1ScoreMetric.compute`:
returns 0.0 when precision + recall == 0.0. -/
def f1Of (p r : ℚ) : ℚ :=
  if p + r = 0 then 0 else 2 * p * r / (p + r)

/-- Model of `F1ScoreMetric.compute` (lines 105-122). -/
def F1Score_compute (ref test : MixedGraph) : ℚ :=
  let c := count_tp_fp_fn ref test
  f1Of (precisionOf c.1 c.2.1) (recallOf c.1 c.2.2)

/-- TPR as computed in `TPRMetric.compute`: 0.0 when tp + fn == 0. -/
def tprOf (tp fn : Nat) : ℚ :=
  if tp + fn = 0 then 0 else (tp : ℚ) / ((tp : ℚ) + (fn : ℚ))

/-- Model of `TPRMetric.compute` (TPRMetric.py, lines 23-37). -/
def TPR_compute (ref test : MixedGraph) : ℚ :=
  let c := count_tp_fp_fn ref test
  tprOf c.1 c.2.2

/-- Reference graph of the spec scenario: arc 0→1 and edge 1–2. -/
def refScenario : MixedGraph :=
  ⟨{(0, 1)}, {(1, 2)}⟩

/-- Test graph of the spec scenario: arc 1→0 and edge 1–2. -/
def testScenario : MixedGraph :=
  ⟨{(1, 0)}, {(1, 2)}⟩

/-- Reference graph with the single arc 0→1. -/
def singleArcGraph : MixedGraph :=
  ⟨{(0, 1)}, ∅⟩

/-- The empty mixed graph. -/
def emptyGraph : MixedGraph :=
  ⟨∅, ∅⟩

/-- The four classification buckets for reference arcs partition the
reference arc set: the if/elif/else chain assigns every ref arc to
exactly one bucket. -/
lemma arcs_partition (ref test : MixedGraph) :
    true_arc ref test + misoriented_arc ref test + wrong_edge_arc ref test
      + wrong_none_arc ref test = ref.arcs.card := by
  classical
  unfold true_arc misoriented_arc wrong_edge_arc wrong_none_arc
  have h1 := Finset.filter_card_add_filter_neg_card_eq_card
    (s := ref.arcs) (p := fun a => existsArc test a.1 a.2)
  have h2 := Finset.filter_card_add_filter_neg_card_eq_card
    (s := ref.arcs.filter fun a => ¬ existsArc test a.1 a.2)
    (p := fun a => existsArc test a.2 a.1)
  have h3 := Finset.filter_card_add_filter_neg_card_eq_card
    (s := ref.arcs.filter fun a => ¬ existsArc test a.1 a.2 ∧ ¬ existsArc test a.2 a.1)
    (p := fun a => existsEdge test a.1 a.2)
  simp only [Finset.filter_filter] at h1 h2 h3
  have e2 : (ref.arcs.filter fun a =>
      (¬ existsArc test a.1 a.2 ∧ ¬ existsArc test a.2 a.1) ∧ existsEdge test a.1 a.2)
      = ref.arcs.filter fun a =>
      ¬ existsArc test a.1 a.2 ∧ ¬ existsArc test a.2 a.1 ∧ existsEdge test a.1 a.2 := by
    apply Finset.filter_congr; intro a _; simp [and_assoc]
  have e3 : (ref.arcs.filter fun a =>
      (¬ existsArc test a.1 a.2 ∧ ¬ existsArc test a.2 a.1) ∧ ¬ existsEdge test a.1 a.2)
      = ref.arcs.filter fun a =>
      ¬ existsArc test a.1 a.2 ∧ ¬ existsArc test a.2 a.1 ∧ ¬ existsEdge test a.1 a.2 := by
    apply Finset.filter_congr; intro a _; simp [and_assoc]
  rw [e2, e3] at h3
  omega

/-- The three classification buckets for reference edges partition the
reference edge set. -/
lemma edges_partition (ref test : MixedGraph) :
    true_edge ref test + wrong_arc_edge ref test + wrong_none_edge ref test
      = ref.edges.card := by
  classical
  unfold true_edge wrong_arc_edge wrong_none_edge
  have h1 := Finset.filter_card_add_filter_neg_card_eq_card
    (s := ref.edges) (p := fun e => existsEdge test e.1 e.2)
  have h2 := Finset.filter_card_add_filter_neg_card_eq_card
    (s := ref.edges.filter fun e => ¬ existsEdge test e.1 e.2)
    (p := fun e => existsArc test e.1 e.2 ∨ existsArc test e.2 e.1)
  simp only [Finset.filter_filter] at h1 h2
  omega

/-- C2: in `count_tp_fp_fn`, a misoriented reference arc and any
arc-versus-edge type mismatch count toward FP only and never toward FN:
FP is the sum of the misorientation, mismatch and spurious buckets, and
FN together with the matched, misoriented and mismatched reference links
accounts for all reference links, so FN counts only reference links
completely absent from the test graph.  On the spec scenario
(ref: arc 0→1, edge 1–2; test: arc 1→0, edge 1–2) the counts are
TP=1, FP=1, FN=0 with precision 1/2, recall 1, F1 = 2/3 and TPR 1. -/
theorem misoriented_and_mismatch_are_fp_only :
    (∀ ref test : MixedGraph,
      (count_tp_fp_fn ref test).2.1 =
        misoriented_arc ref test + wrong_edge_arc ref test + wrong_arc_edge ref test
          + wrong_arc_none ref test + wrong_edge_none ref test ∧
      (count_tp_fp_fn ref test).2.2
          + (true_arc ref test + true_edge ref test)
          + (misoriented_arc ref test + wrong_edge_arc ref test + wrong_arc_edge ref test)
        = ref.arcs.card + ref.edges.card) ∧
    count_tp_fp_fn refScenario testScenario = (1, 1, 0) ∧
    precisionOf 1 1 = 1/2 ∧ recallOf 1 0 = 1 ∧
    F1Score_compute refScenario testScenario = 2/3 ∧
    TPR_compute refScenario testScenario = 1 := by
  refine ⟨fun ref test => ⟨rfl, ?_⟩, ?_, ?_, ?_, ?_, ?_⟩
  · have ha := arcs_partition ref test
    have he := edges_partition ref test
    simp only [count_tp_fp_fn]
    omega
  · decide
  · unfold precisionOf; norm_num
  · unfold recallOf; norm_num
  · have hc : count_tp_fp_fn refScenario testScenario = (1, 1, 0) := by decide
    unfold F1Score_compute
    rw [hc]
    unfold f1Of precisionOf recallOf
    norm_num
  · have hc : count_tp_fp_fn refScenario testScenario = (1, 1, 0) := by decide
    unfold TPR_compute
    rw [hc]
    unfold tprOf
    norm_num

/-- C3: comparing any CPDAG to itself yields FP = 0, FN = 0 and
TP = |arcs| + |edges|; when the graph has at least one arc or edge the
derived F1 and TPR scores are both 1. -/
theorem self_comparison_perfect (g : MixedGraph) :
    count_tp_fp_fn g g = (g.arcs.card + g.edges.card, 0, 0) ∧
    (0 < g.arcs.card + g.edges.card →
      F1Score_compute g g = 1 ∧ TPR_compute g g = 1) := by
  classical
  have harc : ∀ a ∈ g.arcs, existsArc g a.1 a.2 := by
    intro a ha; simpa [existsArc] using ha
  have hedge : ∀ e ∈ g.edges, existsEdge g e.1 e.2 := by
    intro e he; exact Or.inl (by simpa using he)
  have hta : true_arc g g = g.arcs.card := by
    unfold true_arc
    rw [Finset.filter_true_of_mem harc]
  have hte : true_edge g g = g.edges.card := by
    unfold true_edge
    rw [Finset.filter_true_of_mem hedge]
  have hma : misoriented_arc g g = 0 := by
    unfold misoriented_arc
    rw [Finset.filter_false_of_mem, Finset.card_empty]
    intro a ha h; exact h.1 (harc a ha)
  have hwea : wrong_edge_arc g g = 0 := by
    unfold wrong_edge_arc
    rw [Finset.filter_false_of_mem, Finset.card_empty]
    intro a ha h; exact h.1 (harc a ha)
  have hwna : wrong_none_arc g g = 0 := by
    unfold wrong_none_arc
    rw [Finset.filter_false_of_mem, Finset.card_empty]
    intro a ha h; exact h.1 (harc a ha)
  have hwae : wrong_arc_edge g g = 0 := by
    unfold wrong_arc_edge
    rw [Finset.filter_false_of_mem, Finset.card_empty]
    intro e he h; exact h.1 (hedge e he)
  have hwne : wrong_none_edge g g = 0 := by
    unfold wrong_none_edge
    rw [Finset.filter_false_of_mem, Finset.card_empty]
    intro e he h; exact h.1 (hedge e he)
  have hwan : wrong_arc_none g g = 0 := by
    unfold wrong_arc_none
    rw [Finset.filter_false_of_mem, Finset.card_empty]
    intro a ha h; exact h.1 (harc a ha)
  have hwen : wrong_edge_none g g = 0 := by
    unfold wrong_edge_none
    rw [Finset.filter_false_of_mem, Finset.card_empty]
    intro e he h; exact h.1 (hedge e he)
  have hcount : count_tp_fp_fn g g = (g.arcs.card + g.edges.card, 0, 0) := by
    unfold count_tp_fp_fn
    rw [hta, hte, hma, hwea, hwae, hwan, hwen, hwna, hwne]
  refine ⟨hcount, fun hpos => ?_⟩
  set n : Nat := g.arcs.card + g.edges.card with hn
  have hne : n ≠ 0 := by omega
  have hnq : ((n : ℚ)) ≠ 0 := Nat.cast_ne_zero.mpr hne
  constructor
  · unfold F1Score_compute
    rw [hcount]
    unfold f1Of precisionOf recallOf
    simp only [Nat.add_zero, Nat.cast_zero, add_zero]
    rw [if_pos hpos]
    rw [div_self hnq]
    norm_num
  · unfold TPR_compute
    rw [hcount]
    unfold tprOf
    simp only [Nat.add_zero, Nat.cast_zero, add_zero]
    rw [if_neg hne, div_self hnq]

/-- Witness for `self_comparison_perfect` at the graph with single arc 0→1. -/
theorem self_comparison_perfect_witness :
    0 < singleArcGraph.arcs.card + singleArcGraph.edges.card ∧
    F1Score_compute singleArcGraph singleArcGraph = 1 ∧
    TPR_compute singleArcGraph singleArcGraph = 1 :=
  ⟨by decide,
   ((self_comparison_perfect singleArcGraph).2 (by decide)).1,
   ((self_comparison_perfect singleArcGraph).2 (by decide)).2⟩

/-- C8: the metric computations never raise on degenerate counts:
precision is 0 when tp+fp = 0, recall/TPR is 0 when tp+fn = 0, F1 is 0
when precision+recall = 0, and for a reference with the single arc 0→1
against an empty test graph the counts are (0, 0, 1) with F1 and TPR
both 0. -/
theorem degenerate_counts_return_zero :
    (∀ tp fp : Nat, tp + fp = 0 → precisionOf tp fp = 0) ∧
    (∀ tp fn : Nat, tp + fn = 0 → recallOf tp fn = 0 ∧ tprOf tp fn = 0) ∧
    (∀ p r : ℚ, p + r = 0 → f1Of p r = 0) ∧
    count_tp_fp_fn singleArcGraph emptyGraph = (0, 0, 1) ∧
    F1Score_compute singleArcGraph emptyGraph = 0 ∧
    TPR_compute singleArcGraph emptyGraph = 0 := by
  have hc : count_tp_fp_fn singleArcGraph emptyGraph = (0, 0, 1) := by decide
  refine ⟨?_, ?_, ?_, hc, ?_, ?_⟩
  · intro tp fp h; unfold precisionOf; simp [h]
  · intro tp fn h
    constructor
    · unfold recallOf; simp [h]
    · unfold tprOf; simp [h]
  · intro p r h; unfold f1Of; simp [h]
  · unfold F1Score_compute
    rw [hc]
    unfold f1Of precisionOf recallOf
    norm_num
  · unfold TPR_compute
    rw [hc]
    unfold tprOf
    norm_num

/-- Witness for `degenerate_counts_return_zero` at tp = fp = fn = 0 and
p = r = 0. -/
theorem degenerate_counts_return_zero_witness :
    precisionOf 0 0 = 0 ∧ recallOf 0 0 = 0 ∧ tprOf 0 0 = 0 ∧ f1Of 0 0 = 0 :=
  ⟨degenerate_counts_return_zero.1 0 0 rfl,
   (degenerate_counts_return_zero.2.1 0 0 rfl).1,
   (degenerate_counts_return_zero.2.1 0 0 rfl).2,
   degenerate_counts_return_zero.2.2.1 0 0 (by norm_num)⟩

/-! ### Grid-search results and the Pareto selector
(src/analysis/GridSearch.py, src/analysis/ParetoSelector.py)

Python dictionaries are modelled as association lists; metric scores are
exact rationals.  Object identity (`other is candidate` in `pareto_front`)
is modelled as position inequality in the enumerated candidate list: each
trial produces a fresh result object, so two list positions never alias. -/

/-- Model of the `GridSearchResult` dataclass. -/
structure GridSearchResult where
  params : List (String × Int)
  scores : List (String × ℚ)
  error : Option String
deriving DecidableEq

/-- Score lookup `r.scores[metric_name]`; defaults to 0 for an absent key
(only ever applied where the key is present). -/
def scoreOf (r : GridSearchResult) (m : String) : ℚ :=
  (r.scores.lookup m).getD 0

/-- Participation test of `pareto_front`: the result has a score for every
objective metric. -/
def participates (r : GridSearchResult) (objectives : List (String × Bool)) : Bool :=
  objectives.all fun o => (r.scores.lookup o.1).isSome

/-- Per-objective "a is at least as good as b" in the objective's stated
direction (`True` = lower is better). -/
def atLeastAsGood (a b : GridSearchResult) (o : String × Bool) : Bool :=
  if o.2 then decide (scoreOf a o.1 ≤ scoreOf b o.1)
  else decide (scoreOf b o.1 ≤ scoreOf a o.1)

/-- Per-objective "a is strictly better than b" in the objective's stated
direction. -/
def strictlyBetter (a b : GridSearchResult) (o : String × Bool) : Bool :=
  if o.2 then decide (scoreOf a o.1 < scoreOf b o.1)
  else decide (scoreOf b o.1 < scoreOf a o.1)

/-- Model of `_dominates` (ParetoSelector.py, lines 47-77).  The source
loop breaks as soon as one objective makes `a` worse and then returns
`at_least_as_good and strictly_better`; that is equivalent to: a is at
least as good on all objectives and strictly better on at least one. -/
def _dominates (a b : GridSearchResult) (objectives : List (String × Bool)) : Bool :=
  objectives.all (atLeastAsGood a b) && objectives.any (strictlyBetter a b)

/-- The participating results of `pareto_front` (its `valid` list). -/
def validOf (results : List GridSearchResult)
    (objectives : List (String × Bool)) : List GridSearchResult :=
  results.filter fun r => participates r objectives

/-- Model of `pareto_front` (ParetoSelector.py, lines 10-44): keep every
participating candidate not dominated by a participating result at
another position. -/
def pareto_front (results : List GridSearchResult)
    (objectives : List (String × Bool)) : List GridSearchResult :=
  let valid := validOf results objectives
  if valid.isEmpty then []
  else
    (valid.enum.filter fun ic =>
      !(valid.enum.any fun jo => jo.1 != ic.1 && _dominates jo.2 ic.2 objectives)).map
      Prod.snd

/-- The value of `List.all` is determined by the pointwise values of its
predicate. -/
lemma list_all_congr {α : Type} (p q : α → Bool) (l : List α)
    (h : ∀ x ∈ l, p x = q x) : l.all p = l.all q := by
  induction l with
  | nil => rfl
  | cons x xs ih =>
    simp only [List.all_cons, h x (by simp)]
    rw [ih fun y hy => h y (by simp [hy])]

/-- The value of `List.any` is determined by the pointwise values of its
predicate. -/
lemma list_any_congr {α : Type} (p q : α → Bool) (l : List α)
    (h : ∀ x ∈ l, p x = q x) : l.any p = l.any q := by
  induction l with
  | nil => rfl
  | cons x xs ih =>
    simp only [List.any_cons, h x (by simp)]
    rw [ih fun y hy => h y (by simp [hy])]

/-- A result never strictly beats another with the same score on an
objective. -/
lemma strictlyBetter_eq_false_of_eq (a b : GridSearchResult) (o : String × Bool)
    (h : scoreOf a o.1 = scoreOf b o.1) : strictlyBetter a b o = false := by
  unfold strictlyBetter
  rw [h]
  by_cases h2 : o.2 <;> simp [h2, lt_irrefl]

/-- Results with equal scores on every objective never dominate each
other. -/
lemma dominates_eq_false_of_eqScores (a b : GridSearchResult)
    (objectives : List (String × Bool))
    (h : ∀ o ∈ objectives, scoreOf a o.1 = scoreOf b o.1) :
    _dominates a b objectives = false := by
  unfold _dominates
  have hany : objectives.any (strictlyBetter a b) = false := by
    rw [List.any_eq_false]
    intro o ho
    rw [strictlyBetter_eq_false_of_eq a b o (h o ho)]
    simp
  simp [hany]

/-- Self-domination is impossible. -/
lemma dominates_self_eq_false (a : GridSearchResult)
    (objectives : List (String × Bool)) : _dominates a a objectives = false :=
  dominates_eq_false_of_eqScores a a objectives fun _ _ => rfl

/-- Domination only looks at the dominated result's scores on the
objective metrics. -/
lemma dominates_congr_right (a b b' : GridSearchResult)
    (objectives : List (String × Bool))
    (h : ∀ o ∈ objectives, scoreOf b o.1 = scoreOf b' o.1) :
    _dominates a b objectives = _dominates a b' objectives := by
  unfold _dominates
  have h1 : ∀ o ∈ objectives, atLeastAsGood a b o = atLeastAsGood a b' o := by
    intro o ho; unfold atLeastAsGood; rw [h o ho]
  have h2 : ∀ o ∈ objectives, strictlyBetter a b o = strictlyBetter a b' o := by
    intro o ho; unfold strictlyBetter; rw [h o ho]
  rw [list_all_congr (atLeastAsGood a b) (atLeastAsGood a b') objectives h1,
      list_any_congr (strictlyBetter a b) (strictlyBetter a b') objectives h2]

/-- Characterization of Pareto-front membership: a result is in the front
iff it participates and no participating result dominates it. -/
lemma mem_pareto_front_iff (results : List GridSearchResult)
    (objectives : List (String × Bool)) (c : GridSearchResult) :
    c ∈ pareto_front results objectives ↔
      c ∈ validOf results objectives ∧
        ∀ o ∈ validOf results objectives, _dominates o c objectives = false := by
  unfold pareto_front
  by_cases hemp : (validOf results objectives).isEmpty
  · have hnil : validOf results objectives = [] := List.isEmpty_iff.mp hemp
    simp [hnil]
  · rw [if_neg hemp]
    constructor
    · intro hc
      rcases List.mem_map.mp hc with ⟨ic, hic, hsnd⟩
      rcases List.mem_filter.mp hic with ⟨henum, hpred⟩
      rw [Bool.not_eq_true', List.any_eq_false] at hpred
      have hget : (validOf results objectives)[ic.1]? = some ic.2 :=
        List.mem_enum_iff_getElem?.mp henum
      subst hsnd
      refine ⟨List.getElem?_mem hget, ?_⟩
      intro o ho
      obtain ⟨j, hj, hjo⟩ := List.mem_iff_getElem.mp ho
      by_cases hji : j = ic.1
      · have hgetj : (validOf results objectives)[j]? = some o := by
          rw [List.getElem?_eq_getElem hj, hjo]
        rw [hji, hget] at hgetj
        obtain rfl : ic.2 = o := Option.some_injective _ hgetj
        exact dominates_self_eq_false ic.2 objectives
      · have hmem : (j, o) ∈ (validOf results objectives).enum :=
          List.mem_enum_iff_getElem?.mpr (by rw [List.getElem?_eq_getElem hj, hjo])
        have := hpred (j, o) hmem
        simpa [Bool.and_eq_false_iff, bne_eq_false_iff_eq, hji] using this
    · rintro ⟨hcv, hnd⟩
      obtain ⟨i, hi, hieq⟩ := List.mem_iff_getElem.mp hcv
      have henum : (i, c) ∈ (validOf results objectives).enum :=
        List.mem_enum_iff_getElem?.mpr (by rw [List.getElem?_eq_getElem hi, hieq])
      apply List.mem_map.mpr
      refine ⟨(i, c), List.mem_filter.mpr ⟨henum, ?_⟩, rfl⟩
      rw [Bool.not_eq_true', List.any_eq_false]
      intro jo hjo
      have hjv : jo.2 ∈ validOf results objectives := by
        have := List.mem_enum_iff_getElem?.mp hjo
        exact List.getElem?_mem this
      simp [hnd jo.2 hjv]

/-- C7: `pareto_front` returns exactly the participating results not
dominated by any other participating result: every front member has a
score for every objective, no front member is dominated by any
participating result, every non-dominated participating result is in
the front, and the front is an antichain for `_dominates`. -/
theorem pareto_front_exact_nondominated :
    ∀ (results : List GridSearchResult) (objectives : List (String × Bool)),
      (∀ c ∈ pareto_front results objectives,
        c ∈ results ∧ participates c objectives = true ∧
          ∀ o ∈ validOf results objectives, _dominates o c objectives = false) ∧
      (∀ r ∈ validOf results objectives,
        (∀ o ∈ validOf results objectives, _dominates o r objectives = false) →
          r ∈ pareto_front results objectives) ∧
      (∀ a ∈ pareto_front results objectives, ∀ b ∈ pareto_front results objectives,
        _dominates a b objectives = false) := by
  intro results objectives
  refine ⟨?_, ?_, ?_⟩
  · intro c hc
    obtain ⟨hcv, hnd⟩ := (mem_pareto_front_iff results objectives c).mp hc
    obtain ⟨hcr, hcp⟩ := List.mem_filter.mp hcv
    exact ⟨hcr, hcp, hnd⟩
  · intro r hr hnd
    exact (mem_pareto_front_iff results objectives r).mpr ⟨hr, hnd⟩
  · intro a ha b hb
    obtain ⟨hav, _⟩ := (mem_pareto_front_iff results objectives a).mp ha
    obtain ⟨_, hbnd⟩ := (mem_pareto_front_iff results objectives b).mp hb
    exact hbnd a hav

/-- First tied trial result used in the Pareto examples. -/
def tiedA : GridSearchResult :=
  ⟨[("p", 1)], [("m", 1)], none⟩

/-- Second tied trial result (different params, same score). -/
def tiedB : GridSearchResult :=
  ⟨[("p", 2)], [("m", 1)], none⟩

/-- A trial result dominating both tied results on the single objective. -/
def domC : GridSearchResult :=
  ⟨[("p", 3)], [("m", 0)], none⟩

/-- Single lower-is-better objective used in the Pareto examples. -/
def objsW : List (String × Bool) :=
  [("m", true)]

/-- Witness for `pareto_front_exact_nondominated`: on results
`[tiedA, domC]` with the single objective `m` (lower is better), `domC`
is in the front and `tiedA` (dominated by `domC`) is not. -/
theorem pareto_front_exact_nondominated_witness :
    domC ∈ pareto_front [tiedA, domC] objsW ∧
    _dominates domC domC objsW = false :=
  ⟨(pareto_front_exact_nondominated [tiedA, domC] objsW).2.1 domC (by decide)
      (by decide),
   (pareto_front_exact_nondominated [tiedA, domC] objsW).2.2 domC
      ((pareto_front_exact_nondominated [tiedA, domC] objsW).2.1 domC (by decide)
        (by decide))
      domC
      ((pareto_front_exact_nondominated [tiedA, domC] objsW).2.1 domC (by decide)
        (by decide))⟩

/-- Counterexample to C9 as stated: `tiedA` and `tiedB` are distinct,
both participate and have equal scores on every objective, yet neither
appears in the front of `[tiedA, tiedB, domC]` because `domC` dominates
both — tied results are not unconditionally kept. -/
theorem tied_results_dropped_counterexample :
    tiedA ≠ tiedB ∧
    participates tiedA objsW = true ∧
    participates tiedB objsW = true ∧
    scoreOf tiedA "m" = scoreOf tiedB "m" ∧
    tiedA ∉ pareto_front [tiedA, tiedB, domC] objsW ∧
    tiedB ∉ pareto_front [tiedA, tiedB, domC] objsW := by
  decide

/-- C9 (amended): two participating results with equal scores on every
objective never dominate each other, and either both or neither appear
in the Pareto front — ties are never separated. -/
theorem tied_results_stand_or_fall_together :
    ∀ (results : List GridSearchResult) (objectives : List (String × Bool))
      (a b : GridSearchResult),
      a ∈ validOf results objectives → b ∈ validOf results objectives →
      (∀ o ∈ objectives, scoreOf a o.1 = scoreOf b o.1) →
      _dominates a b objectives = false ∧ _dominates b a objectives = false ∧
        (a ∈ pareto_front results objectives ↔ b ∈ pareto_front results objectives) := by
  intro results objectives a b hav hbv heq
  refine ⟨dominates_eq_false_of_eqScores a b objectives heq,
    dominates_eq_false_of_eqScores b a objectives fun o ho => (heq o ho).symm, ?_⟩
  rw [mem_pareto_front_iff, mem_pareto_front_iff]
  constructor
  · rintro ⟨_, hnd⟩
    refine ⟨hbv, fun o ho => ?_⟩
    rw [← dominates_congr_right o a b objectives heq]
    exact hnd o ho
  · rintro ⟨_, hnd⟩
    refine ⟨hav, fun o ho => ?_⟩
    rw [dominates_congr_right o a b objectives heq]
    exact hnd o ho

/-- Witness for `tied_results_stand_or_fall_together` on
`[tiedA, tiedB]` with the single objective `m`. -/
theorem tied_results_stand_or_fall_together_witness :
    _dominates tiedA tiedB objsW = false ∧
    _dominates tiedB tiedA objsW = false ∧
    (tiedA ∈ pareto_front [tiedA, tiedB] objsW ↔
      tiedB ∈ pareto_front [tiedA, tiedB] objsW) :=
  tied_results_stand_or_fall_together [tiedA, tiedB] objsW tiedA tiedB
    (by decide) (by decide) (by decide)

/-! ### Grid-search engine (src/analysis/GridSearch.py) -/

/-- Model of Python `min(l, key=key)` for nonempty `l`: the first element
with minimal key (ties keep the earlier element). -/
def minByFirst (key : GridSearchResult → ℚ) :
    List GridSearchResult → Option GridSearchResult
  | [] => none
  | x :: xs => some (xs.foldl (fun b y => if key y < key b then y else b) x)

/-- Model of Python `max(l, key=key)` for nonempty `l`: the first element
with maximal key. -/
def maxByFirst (key : GridSearchResult → ℚ) :
    List GridSearchResult → Option GridSearchResult
  | [] => none
  | x :: xs => some (xs.foldl (fun b y => if key b < key y then y else b) x)

/-- Model of `GridSearch.best_result` (GridSearch.py, lines 144-167).
The `_is_fitted` flag and recorded results are passed explicitly;
`objectives.get(metric_name, True)` defaults to lower-is-better, which is
also the constructor default when no objectives are given.  The
"not yet run" `RuntimeError` is the `Except.error` branch. -/
def best_result (isFitted : Bool) (objectives : List (String × Bool))
    (results : List GridSearchResult) (metricName : String) :
    Except String (Option GridSearchResult) :=
  if isFitted = false then
    Except.error "GridSearch has not been run yet. Call run() first."
  else
    let valid := results.filter fun r => (r.scores.lookup metricName).isSome
    if valid.isEmpty then Except.ok none
    else if (objectives.lookup metricName).getD true then
      minByFirst (fun r => scoreOf r metricName) valid |> Except.ok
    else
      maxByFirst (fun r => scoreOf r metricName) valid |> Except.ok

/-- The fold underlying `minByFirst` returns the accumulator or a list
element, and its key is a lower bound for both. -/
lemma foldl_min_spec (key : GridSearchResult → ℚ) :
    ∀ (xs : List GridSearchResult) (b : GridSearchResult),
      (xs.foldl (fun b y => if key y < key b then y else b) b = b ∨
        xs.foldl (fun b y => if key y < key b then y else b) b ∈ xs) ∧
      key (xs.foldl (fun b y => if key y < key b then y else b) b) ≤ key b ∧
      ∀ y ∈ xs, key (xs.foldl (fun b y => if key y < key b then y else b) b) ≤ key y := by
  intro xs
  induction xs with
  | nil => exact fun b => ⟨Or.inl rfl, le_refl _, by simp⟩
  | cons x xs ih =>
    intro b
    simp only [List.foldl_cons]
    obtain ⟨hmem, hleb, hall⟩ := ih (if key x < key b then x else b)
    have hleb2 : key (xs.foldl (fun b y => if key y < key b then y else b)
        (if key x < key b then x else b)) ≤ key b := by
      refine le_trans hleb ?_
      by_cases hxb : key x < key b
      · rw [if_pos hxb]; exact le_of_lt hxb
      · rw [if_neg hxb]
    have hlex : key (xs.foldl (fun b y => if key y < key b then y else b)
        (if key x < key b then x else b)) ≤ key x := by
      refine le_trans hleb ?_
      by_cases hxb : key x < key b
      · rw [if_pos hxb]
      · rw [if_neg hxb]; exact le_of_not_lt hxb
    refine ⟨?_, hleb2, ?_⟩
    · by_cases hxb : key x < key b
      · rw [if_pos hxb] at hmem ⊢
        rcases hmem with hmem | hmem
        · exact Or.inr (by rw [hmem]; exact List.mem_cons_self x xs)
        · exact Or.inr (List.mem_cons_of_mem x hmem)
      · rw [if_neg hxb] at hmem ⊢
        rcases hmem with hmem | hmem
        · exact Or.inl hmem
        · exact Or.inr (List.mem_cons_of_mem x hmem)
    · intro y hy
      rcases List.mem_cons.mp hy with rfl | hy
      · exact hlex
      · exact hall y hy

/-- The fold underlying `maxByFirst` returns the accumulator or a list
element, and its key is an upper bound for both. -/
lemma foldl_max_spec (key : GridSearchResult → ℚ) :
    ∀ (xs : List GridSearchResult) (b : GridSearchResult),
      (xs.foldl (fun b y => if key b < key y then y else b) b = b ∨
        xs.foldl (fun b y => if key b < key y then y else b) b ∈ xs) ∧
      key b ≤ key (xs.foldl (fun b y => if key b < key y then y else b) b) ∧
      ∀ y ∈ xs, key y ≤ key (xs.foldl (fun b y => if key b < key y then y else b) b) := by
  intro xs
  induction xs with
  | nil => exact fun b => ⟨Or.inl rfl, le_refl _, by simp⟩
  | cons x xs ih =>
    intro b
    simp only [List.foldl_cons]
    obtain ⟨hmem, hgeb, hall⟩ := ih (if key b < key x then x else b)
    have hgeb2 : key b ≤ key (xs.foldl (fun b y => if key b < key y then y else b)
        (if key b < key x then x else b)) := by
      refine le_trans ?_ hgeb
      by_cases hxb : key b < key x
      · rw [if_pos hxb]; exact le_of_lt hxb
      · rw [if_neg hxb]
    have hgex : key x ≤ key (xs.foldl (fun b y => if key b < key y then y else b)
        (if key b < key x then x else b)) := by
      refine le_trans ?_ hgeb
      by_cases hxb : key b < key x
      · rw [if_pos hxb]
      · rw [if_neg hxb]; exact le_of_not_lt hxb
    refine ⟨?_, hgeb2, ?_⟩
    · by_cases hxb : key b < key x
      · rw [if_pos hxb] at hmem ⊢
        rcases hmem with hmem | hmem
        · exact Or.inr (by rw [hmem]; exact List.mem_cons_self x xs)
        · exact Or.inr (List.mem_cons_of_mem x hmem)
      · rw [if_neg hxb] at hmem ⊢
        rcases hmem with hmem | hmem
        · exact Or.inl hmem
        · exact Or.inr (List.mem_cons_of_mem x hmem)
    · intro y hy
      rcases List.mem_cons.mp hy with rfl | hy
      · exact hgex
      · exact hall y hy

/-- C6: `best_result` raises the "not yet run" error before `run`,
returns none (without raising) when no recorded trial has the metric,
and otherwise returns a trial with minimal score under the default
lower-is-better direction and maximal score otherwise. -/
theorem best_result_spec :
    (∀ (objectives : List (String × Bool)) (results : List GridSearchResult)
        (m : String),
      best_result false objectives results m =
        Except.error "GridSearch has not been run yet. Call run() first.") ∧
    (∀ (objectives : List (String × Bool)) (results : List GridSearchResult)
        (m : String),
      (∀ r ∈ results, (r.scores.lookup m).isSome = false) →
        best_result true objectives results m = Except.ok none) ∧
    (∀ (objectives : List (String × Bool)) (results : List GridSearchResult)
        (m : String) (r0 : GridSearchResult),
      r0 ∈ results → (r0.scores.lookup m).isSome = true →
      (objectives.lookup m).getD true = true →
      ∃ r, best_result true objectives results m = Except.ok (some r) ∧
        r ∈ results ∧ (r.scores.lookup m).isSome = true ∧
        ∀ s ∈ results, (s.scores.lookup m).isSome = true →
          scoreOf r m ≤ scoreOf s m) ∧
    (∀ (objectives : List (String × Bool)) (results : List GridSearchResult)
        (m : String) (r0 : GridSearchResult),
      r0 ∈ results → (r0.scores.lookup m).isSome = true →
      (objectives.lookup m).getD true = false →
      ∃ r, best_result true objectives results m = Except.ok (some r) ∧
        r ∈ results ∧ (r.scores.lookup m).isSome = true ∧
        ∀ s ∈ results, (s.scores.lookup m).isSome = true →
          scoreOf s m ≤ scoreOf r m) := by
  refine ⟨fun _ _ _ => rfl, ?_, ?_, ?_⟩
  · intro objectives results m h
    have hnil : results.filter (fun r => (r.scores.lookup m).isSome) = [] := by
      rw [List.filter_eq_nil_iff]
      intro r hr
      simp [h r hr]
    simp [best_result, hnil]
  · intro objectives results m r0 hr0 hsome hdir
    have hval : r0 ∈ results.filter fun r => (r.scores.lookup m).isSome :=
      List.mem_filter.mpr ⟨hr0, hsome⟩
    obtain ⟨x, xs, hcons⟩ :=
      List.exists_cons_of_ne_nil (List.ne_nil_of_mem hval)
    have hemp : (results.filter fun r => (r.scores.lookup m).isSome).isEmpty = false := by
      rw [hcons]; rfl
    refine ⟨xs.foldl (fun b y => if scoreOf y m < scoreOf b m then y else b) x, ?_, ?_⟩
    · simp only [best_result, Bool.true_eq_false, if_false, hcons, List.isEmpty_cons,
        Bool.false_eq_true, hdir, if_true, minByFirst]
    · obtain ⟨hmem, _, hall⟩ := foldl_min_spec (fun r => scoreOf r m) xs x
      have hmem2 : xs.foldl (fun b y => if scoreOf y m < scoreOf b m then y else b) x
          ∈ results.filter fun r => (r.scores.lookup m).isSome := by
        rw [hcons]
        rcases hmem with hmem | hmem
        · rw [hmem]; exact List.mem_cons_self x xs
        · exact List.mem_cons_of_mem x hmem
      obtain ⟨hres, hsome2⟩ := List.mem_filter.mp hmem2
      refine ⟨hres, hsome2, ?_⟩
      intro s hs hssome
      have hsval : s ∈ results.filter fun r => (r.scores.lookup m).isSome :=
        List.mem_filter.mpr ⟨hs, hssome⟩
      rw [hcons] at hsval
      rcases List.mem_cons.mp hsval with rfl | hsval
      · exact (foldl_min_spec (fun r => scoreOf r m) xs s).2.1
      · exact hall s hsval
  · intro objectives results m r0 hr0 hsome hdir
    have hval : r0 ∈ results.filter fun r => (r.scores.lookup m).isSome :=
      List.mem_filter.mpr ⟨hr0, hsome⟩
    obtain ⟨x, xs, hcons⟩ :=
      List.exists_cons_of_ne_nil (List.ne_nil_of_mem hval)
    have hemp : (results.filter fun r => (r.scores.lookup m).isSome).isEmpty = false := by
      rw [hcons]; rfl
    refine ⟨xs.foldl (fun b y => if scoreOf b m < scoreOf y m then y else b) x, ?_, ?_⟩
    · simp only [best_result, Bool.true_eq_false, if_false, hcons, List.isEmpty_cons,
        Bool.false_eq_true, hdir, if_true, maxByFirst]
    · obtain ⟨hmem, _, hall⟩ := foldl_max_spec (fun r => scoreOf r m) xs x
      have hmem2 : xs.foldl (fun b y => if scoreOf b m < scoreOf y m then y else b) x
          ∈ results.filter fun r => (r.scores.lookup m).isSome := by
        rw [hcons]
        rcases hmem with hmem | hmem
        · rw [hmem]; exact List.mem_cons_self x xs
        · exact List.mem_cons_of_mem x hmem
      obtain ⟨hres, hsome2⟩ := List.mem_filter.mp hmem2
      refine ⟨hres, hsome2, ?_⟩
      intro s hs hssome
      have hsval : s ∈ results.filter fun r => (r.scores.lookup m).isSome :=
        List.mem_filter.mpr ⟨hs, hssome⟩
      rw [hcons] at hsval
      rcases List.mem_cons.mp hsval with rfl | hsval
      · exact (foldl_max_spec (fun r => scoreOf r m) xs s).2.1
      · exact hall s hsval

/-- Trial result scoring 3 on metric m, used in the best-result witness. -/
def lowR : GridSearchResult :=
  ⟨[("p", 1)], [("m", 3)], none⟩

/-- Trial result scoring 5 on metric m, used in the best-result witness. -/
def highR : GridSearchResult :=
  ⟨[("p", 2)], [("m", 5)], none⟩

/-- Trial result with no recorded scores (a failed trial). -/
def failedR : GridSearchResult :=
  ⟨[("p", 3)], [], some "fail"⟩

/-- Witness for `best_result_spec`: the not-yet-run error, the all-failed
case, and the min/max selections on two concrete results. -/
theorem best_result_spec_witness :
    best_result false [] [] "m" =
      Except.error "GridSearch has not been run yet. Call run() first." ∧
    best_result true [] [failedR] "m" = Except.ok none ∧
    (∃ r, best_result true [] [lowR, highR] "m" = Except.ok (some r) ∧
      r ∈ [lowR, highR] ∧ (r.scores.lookup "m").isSome = true ∧
      ∀ s ∈ [lowR, highR], (s.scores.lookup "m").isSome = true →
        scoreOf r "m" ≤ scoreOf s "m") ∧
    (∃ r, best_result true [("m", false)] [lowR, highR] "m" = Except.ok (some r) ∧
      r ∈ [lowR, highR] ∧ (r.scores.lookup "m").isSome = true ∧
      ∀ s ∈ [lowR, highR], (s.scores.lookup "m").isSome = true →
        scoreOf s "m" ≤ scoreOf r "m") :=
  ⟨best_result_spec.1 [] [] "m",
   best_result_spec.2.1 [] [failedR] "m" (by decide),
   best_result_spec.2.2.1 [] [lowR, highR] "m" lowR (by decide) (by decide)
     (by decide),
   best_result_spec.2.2.2 [("m", false)] [lowR, highR] "m" lowR (by decide)
     (by decide) (by decide)⟩

/-- Cartesian product of the grid's value lists, in the order of
`itertools.product`: the empty grid yields the single empty combination. -/
def listProduct {α : Type} : List (List α) → List (List α)
  | [] => [[]]
  | vs :: rest => vs.flatMap fun v => (listProduct rest).map fun t => v :: t

/-- Model of the result-accumulation loop of `GridSearch.run`
(GridSearch.py, lines 86-128): one `GridSearchResult` per combination of
the grid values, with `params = dict(zip(param_names, combo))`.  The
try-block body (learner construction, learning, metric computation) is
abstracted as the `trial` function, returning the recorded scores and
error of that combination. -/
def runResults (trial : List (String × Int) → List (String × ℚ) × Option String)
    (grid : List (String × List Int)) : List GridSearchResult :=
  (listProduct (grid.map Prod.snd)).map fun combo =>
    let params := (grid.map Prod.fst).zip combo
    ⟨params, (trial params).1, (trial params).2⟩

/-- The mutable state of a `GridSearch` instance relevant to `run`:
its recorded results and the `_is_fitted` flag. -/
structure GridSearchState where
  results : List GridSearchResult
  isFitted : Bool

/-- Model of `GridSearch.run`: resets `self.results` to a fresh list
(the prior state is discarded) and sets `_is_fitted`. -/
def GridSearch_run (_st : GridSearchState)
    (trial : List (String × Int) → List (String × ℚ) × Option String)
    (grid : List (String × List Int)) : GridSearchState :=
  { results := runResults trial grid, isFitted := true }

/-- The Cartesian product has as many elements as the product of the
value-list lengths. -/
lemma listProduct_length {α : Type} :
    ∀ ls : List (List α), (listProduct ls).length = (ls.map List.length).prod := by
  intro ls
  induction ls with
  | nil => rfl
  | cons vs rest ih =>
    simp only [listProduct, List.length_flatMap, List.map_map, List.map_cons,
      List.prod_cons, Function.comp_def, List.length_map, ih]
    rw [List.map_const', List.sum_replicate, smul_eq_mul]

/-- C10: `GridSearch.run` records exactly one result per combination of
the grid's value lists (the product of their lengths), discarding any
previously recorded results; with an empty parameter grid it executes
exactly one trial whose params mapping is empty. -/
theorem run_records_product_of_grid :
    ∀ (st : GridSearchState)
      (trial : List (String × Int) → List (String × ℚ) × Option String)
      (grid : List (String × List Int)),
      (GridSearch_run st trial grid).results = runResults trial grid ∧
      (GridSearch_run st trial grid).isFitted = true ∧
      (GridSearch_run st trial grid).results.length =
        (grid.map fun kv => kv.2.length).prod ∧
      (GridSearch_run st trial []).results =
        [⟨[], (trial []).1, (trial []).2⟩] ∧
      (GridSearch_run st trial []).results.length = 1 := by
  intro st trial grid
  refine ⟨rfl, rfl, ?_, rfl, rfl⟩
  show (runResults trial grid).length = _
  unfold runResults
  rw [List.length_map, listProduct_length, List.map_map]
  rfl

/-! ### Per-trial exception handling in `GridSearch.run`
(GridSearch.py, lines 109-127)

The try-block runs learner construction and learning, then computes every
metric into a fresh `scores` dict; the `except` clause catches any
exception from either stage and records `GridSearchResult(params=params,
error=str(e))`, whose `scores` field defaults to empty.  The outcome of
construction+learning is modelled as an `Except`; the sequence of metric
computations as a list of (metric name, Except outcome). -/

/-- The metric loop: returns the scores dict, or the first exception. -/
def evalMetrics : List (String × Except String ℚ) → Except String (List (String × ℚ))
  | [] => Except.ok []
  | (n, Except.ok v) :: rest =>
    match evalMetrics rest with
    | Except.ok scores => Except.ok ((n, v) :: scores)
    | Except.error e => Except.error e
  | (_, Except.error e) :: _ => Except.error e

/-- Model of one iteration of the trial loop of `GridSearch.run`: the
whole try-block either yields a result with all scores and no error, or
the first exception is caught and recorded with empty scores. -/
def trialOutcome (params : List (String × Int))
    (learned : Except String (List (String × Except String ℚ))) : GridSearchResult :=
  match learned with
  | Except.error e => ⟨params, [], some e⟩
  | Except.ok ms =>
    match evalMetrics ms with
    | Except.ok scores => ⟨params, scores, none⟩
    | Except.error e => ⟨params, [], some e⟩

/-- Counterexample to C5 as stated: with metric A succeeding (score 1)
and metric B raising, the recorded trial has empty scores (metric A's
score is NOT kept) and its error is set — not an unmarked trial missing
only metric B. -/
theorem metric_failure_counterexample :
    (trialOutcome [] (Except.ok
      [("A", Except.ok 1), ("B", Except.error "boom")])).scores = [] ∧
    (trialOutcome [] (Except.ok
      [("A", Except.ok 1), ("B", Except.error "boom")])).error = some "boom" ∧
    ¬ (("A", (1 : ℚ)) ∈ (trialOutcome [] (Except.ok
        [("A", Except.ok 1), ("B", Except.error "boom")])).scores ∧
      (trialOutcome [] (Except.ok
        [("A", Except.ok 1), ("B", Except.error "boom")])).error = none) := by
  refine ⟨rfl, rfl, ?_⟩
  rintro ⟨h, -⟩
  simp [trialOutcome, evalMetrics] at h

/-- If the metrics before a failing one all succeed, `evalMetrics`
propagates that first exception. -/
lemma evalMetrics_first_error (e : String) :
    ∀ (pre : List (String × Except String ℚ)) (n : String)
      (post : List (String × Except String ℚ)),
      (∀ x ∈ pre, ∃ v, x.2 = Except.ok v) →
      evalMetrics (pre ++ (n, Except.error e) :: post) = Except.error e := by
  intro pre
  induction pre with
  | nil => intro n post _; rfl
  | cons x xs ih =>
    intro n post h
    obtain ⟨nx, vx⟩ := x
    obtain ⟨v, hv⟩ := h (nx, vx) (List.mem_cons_self _ _)
    simp only at hv
    subst hv
    simp only [List.cons_append, evalMetrics, List.append_eq]
    rw [ih n post fun y hy => h y (List.mem_cons_of_mem _ hy)]

/-- C5 (amended): when one metric computation raises, the exception is
caught at trial level, not per metric: the trial is recorded as failed
(error set to the exception message) with an empty scores dict, so the
previously computed metrics' scores are discarded rather than kept. -/
theorem metric_failure_fails_whole_trial :
    ∀ (params : List (String × Int)) (pre : List (String × Except String ℚ))
      (n : String) (e : String) (post : List (String × Except String ℚ)),
      (∀ x ∈ pre, ∃ v, x.2 = Except.ok v) →
      trialOutcome params (Except.ok (pre ++ (n, Except.error e) :: post)) =
        ⟨params, [], some e⟩ := by
  intro params pre n e post h
  simp only [trialOutcome]
  rw [evalMetrics_first_error e pre n post h]

/-- Witness for `metric_failure_fails_whole_trial`: metric A succeeds
with score 1, metric B raises "boom". -/
theorem metric_failure_fails_whole_trial_witness :
    trialOutcome [] (Except.ok
      [("A", Except.ok 1), ("B", Except.error "boom")]) = ⟨[], [], some "boom"⟩ :=
  metric_failure_fails_whole_trial [] [("A", Except.ok 1)] "B" "boom" []
    (by
      intro x hx
      rw [List.mem_singleton] at hx
      subst hx
      exact ⟨1, rfl⟩)

/-! ### Mutual-information estimator (src/preprocessing/hartemink.py,
lines 17-45)

`_mutual_information` builds a contingency table over the distinct values
of its two integer arrays (`np.unique`), normalizes it by its total count
`n` into a joint distribution with row/column marginals, and sums
`p(i,j) * log(p(i,j) / (p_x(i) * p_y(j)))` over cells of positive joint
probability, with natural log; it returns 0.0 when `n == 0`.  Pairing of
the two arrays (`zip(x, y)`) truncates to the shorter length, exactly as
in the source.  Floats are modelled as reals. -/

/-- Total count of the contingency table (`n = cont.sum()`). -/
def contN (x y : List Int) : ℕ :=
  ∑ a ∈ x.toFinset, ∑ b ∈ y.toFinset, (x.zip y).count (a, b)

/-- Joint probability cell `pxy[i, j] = cont[i, j] / n`. -/
noncomputable def pxyF (x y : List Int) (a b : Int) : ℝ :=
  (((x.zip y).count (a, b) : ℝ)) / ((contN x y : ℝ))

/-- Row marginal `px = pxy.sum(axis=1)`. -/
noncomputable def pxF (x y : List Int) (a : Int) : ℝ :=
  ∑ b ∈ y.toFinset, pxyF x y a b

/-- Column marginal `py = pxy.sum(axis=0)`. -/
noncomputable def pyF (x y : List Int) (b : Int) : ℝ :=
  ∑ a ∈ x.toFinset, pxyF x y a b

/-- Model of `_mutual_information` (hartemink.py, lines 17-45). -/
noncomputable def _mutual_information (x y : List Int) : ℝ :=
  if contN x y = 0 then 0
  else
    ∑ a ∈ x.toFinset, ∑ b ∈ y.toFinset,
      if 0 < pxyF x y a b then
        pxyF x y a b * Real.log (pxyF x y a b / (pxF x y a * pyF x y b))
      else 0

/-- Every joint cell is nonnegative. -/
lemma pxyF_nonneg (x y : List Int) (a b : Int) : 0 ≤ pxyF x y a b :=
  div_nonneg (Nat.cast_nonneg _) (Nat.cast_nonneg _)

/-- The joint distribution sums to 1 when the table is nonempty. -/
lemma sum_pxyF (x y : List Int) (h : contN x y ≠ 0) :
    ∑ a ∈ x.toFinset, ∑ b ∈ y.toFinset, pxyF x y a b = 1 := by
  unfold pxyF
  simp_rw [← Finset.sum_div, ← Nat.cast_sum]
  rw [show (∑ a ∈ x.toFinset, ∑ b ∈ y.toFinset, (x.zip y).count (a, b)) = contN x y
    from rfl]
  exact div_self (Nat.cast_ne_zero.mpr h)

/-- Row marginals sum to 1 when the table is nonempty. -/
lemma sum_pxF (x y : List Int) (h : contN x y ≠ 0) :
    ∑ a ∈ x.toFinset, pxF x y a = 1 :=
  sum_pxyF x y h

/-- Column marginals sum to 1 when the table is nonempty. -/
lemma sum_pyF (x y : List Int) (h : contN x y ≠ 0) :
    ∑ b ∈ y.toFinset, pyF x y b = 1 := by
  unfold pyF
  rw [Finset.sum_comm]
  exact sum_pxyF x y h

/-- A joint cell is bounded by its row marginal. -/
lemma pxyF_le_pxF (x y : List Int) (a b : Int) (hb : b ∈ y.toFinset) :
    pxyF x y a b ≤ pxF x y a :=
  Finset.single_le_sum (fun c _ => pxyF_nonneg x y a c) hb

/-- A joint cell is bounded by its column marginal. -/
lemma pxyF_le_pyF (x y : List Int) (a b : Int) (ha : a ∈ x.toFinset) :
    pxyF x y a b ≤ pyF x y b :=
  Finset.single_le_sum (fun c _ => pxyF_nonneg x y c b) ha

/-- Gibbs-style pointwise bound: for positive p and q,
p - q ≤ p * log (p / q). -/
lemma sub_le_mul_log_div (p q : ℝ) (hp : 0 < p) (hq : 0 < q) :
    p - q ≤ p * Real.log (p / q) := by
  have h1 : Real.log (q / p) ≤ q / p - 1 :=
    Real.log_le_sub_one_of_pos (div_pos hq hp)
  have h2 : Real.log (p / q) = - Real.log (q / p) := by
    rw [← Real.log_inv]
    congr 1
    field_simp
  have h3 : 1 - q / p ≤ Real.log (p / q) := by
    rw [h2]; linarith
  have h4 := mul_le_mul_of_nonneg_left h3 (le_of_lt hp)
  have h5 : p * (1 - q / p) = p - q := by
    field_simp
  linarith

/-- Counting swapped pairs in the swapped zip. -/
lemma count_zip_swap : ∀ (x y : List Int) (a b : Int),
    (y.zip x).count (b, a) = (x.zip y).count (a, b) := by
  intro x
  induction x with
  | nil => intro y a b; simp
  | cons hx tx ih =>
    intro y a b
    cases y with
    | nil => simp
    | cons hy ty =>
      simp only [List.zip_cons_cons, List.count_cons, ih ty a b, beq_iff_eq,
        Prod.mk.injEq]
      congr 1
      simp [and_comm]

/-- The table total is symmetric in the two arrays. -/
lemma contN_symm (x y : List Int) : contN y x = contN x y := by
  unfold contN
  rw [Finset.sum_comm]
  refine Finset.sum_congr rfl fun a _ => Finset.sum_congr rfl fun b _ => ?_
  exact count_zip_swap x y a b

/-- The joint cells are symmetric in the two arrays. -/
lemma pxyF_symm (x y : List Int) (a b : Int) : pxyF y x b a = pxyF x y a b := by
  unfold pxyF
  rw [count_zip_swap x y a b, contN_symm x y]

/-- C4: the mutual-information estimator is symmetric in its two
arguments, always nonnegative, and returns 0 on empty input (with exact
real arithmetic in place of floating point). -/
theorem mutual_information_symm_nonneg_empty :
    (∀ x y : List Int, _mutual_information x y = _mutual_information y x) ∧
    (∀ x y : List Int, 0 ≤ _mutual_information x y) ∧
    _mutual_information ([] : List Int) ([] : List Int) = 0 := by
  refine ⟨?_, ?_, ?_⟩
  · intro x y
    unfold _mutual_information
    rw [contN_symm x y]
    by_cases h : contN x y = 0
    · simp [h]
    · rw [if_neg h, if_neg h, Finset.sum_comm]
      refine Finset.sum_congr rfl fun a _ => Finset.sum_congr rfl fun b _ => ?_
      have hpxy : pxyF y x a b = pxyF x y b a := pxyF_symm x y b a
      have hpx : pxF y x a = pyF x y a := by
        unfold pxF pyF
        exact Finset.sum_congr rfl fun c _ => pxyF_symm x y c a
      have hpy : pyF y x b = pxF x y b := by
        unfold pyF pxF
        exact Finset.sum_congr rfl fun c _ => pxyF_symm x y b c
      rw [hpxy, hpx, hpy, mul_comm (pyF x y a) (pxF x y b)]
  · intro x y
    unfold _mutual_information
    by_cases h : contN x y = 0
    · simp [h]
    · rw [if_neg h]
      have hcell : ∀ a ∈ x.toFinset, ∀ b ∈ y.toFinset,
          pxyF x y a b - pxF x y a * pyF x y b ≤
            (if 0 < pxyF x y a b then
              pxyF x y a b * Real.log (pxyF x y a b / (pxF x y a * pyF x y b))
            else 0) := by
        intro a ha b hb
        by_cases hpos : 0 < pxyF x y a b
        · rw [if_pos hpos]
          have hpx : 0 < pxF x y a := lt_of_lt_of_le hpos (pxyF_le_pxF x y a b hb)
          have hpy : 0 < pyF x y b := lt_of_lt_of_le hpos (pxyF_le_pyF x y a b ha)
          exact sub_le_mul_log_div (pxyF x y a b) (pxF x y a * pyF x y b) hpos
            (mul_pos hpx hpy)
        · rw [if_neg hpos]
          have hz : pxyF x y a b = 0 :=
            le_antisymm (not_lt.mp hpos) (pxyF_nonneg x y a b)
          have hm : 0 ≤ pxF x y a * pyF x y b := by
            apply mul_nonneg
            · exact Finset.sum_nonneg fun c _ => pxyF_nonneg x y a c
            · exact Finset.sum_nonneg fun c _ => pxyF_nonneg x y c b
          rw [hz]
          linarith
      have hlow : ∑ a ∈ x.toFinset, ∑ b ∈ y.toFinset,
          (pxyF x y a b - pxF x y a * pyF x y b) ≤
          ∑ a ∈ x.toFinset, ∑ b ∈ y.toFinset,
            (if 0 < pxyF x y a b then
              pxyF x y a b * Real.log (pxyF x y a b / (pxF x y a * pyF x y b))
            else 0) := by
        refine Finset.sum_le_sum fun a ha => Finset.sum_le_sum fun b hb => ?_
        exact hcell a ha b hb
      have hzero : ∑ a ∈ x.toFinset, ∑ b ∈ y.toFinset,
          (pxyF x y a b - pxF x y a * pyF x y b) = 0 := by
        simp_rw [Finset.sum_sub_distrib]
        rw [sum_pxyF x y h]
        simp_rw [← Finset.mul_sum]
        rw [sum_pyF x y h]
        simp only [mul_one]
        rw [sum_pxF x y h]
        norm_num
      linarith
  · simp [_mutual_information, contN]

/-! ### Hartemink discretizer (src/preprocessing/hartemink.py,
lines 48-146)

The initial discretization of step 1 (`pd.qcut`/`pd.cut` edges and
`np.digitize`) is external library code, modelled as a parameter function
producing the integer bin labels of each column from its continuous
values and the initial bin count.  Steps 2 (iterative merging) and 3
(relabeling) are the repository's own code and are embedded directly.
The `while` loop is driven by a fuel argument large enough to reach its
fixpoint whenever `n_bins ≥ 1` (for `n_bins = 0` a single-bin column
would make the source loop forever; the model then stops when fuel runs
out). -/

/-- Distinct bin count of a column (`len(np.unique(col))`). -/
def distinctCount (col : List Int) : ℕ :=
  col.toFinset.card

/-- Sorted distinct values of a column (`np.sort(np.unique(col))`). -/
def sortedVals (col : List Int) : List Int :=
  col.toFinset.sort (· ≤ ·)

/-- Merge bin `hi` into bin `lo`: `merged[merged == bin_hi] = bin_lo`. -/
def mergeVals (col : List Int) (lo hi : Int) : List Int :=
  col.map fun v => if v = hi then lo else v

/-- Total preserved mutual information of a tentatively merged column
against all other columns. -/
noncomputable def totalMI (col : List Int) (others : List (List Int)) : ℝ :=
  (others.map fun o => _mutual_information col o).sum

/-- One step of the best-merge scan: `if total_mi > best_mi:` update the
running best pair and score. -/
noncomputable def selectStep (score : Int × Int → ℝ)
    (best : Option ((Int × Int) × ℝ)) (c : Int × Int) : Option ((Int × Int) × ℝ) :=
  match best with
  | none => some (c, score c)
  | some (p, m) => if m < score c then some (c, score c) else some (p, m)

/-- The best-merge scan: starts from `best_mi = -inf, best_pair = None`
(modelled as `none`, which every finite score beats) and keeps the first
candidate pair of maximal score. -/
noncomputable def selectBest (cands : List (Int × Int)) (score : Int × Int → ℝ) :
    Option (Int × Int) :=
  (cands.foldl (selectStep score) none).map Prod.fst

/-- One iteration of the inner `for j` loop body for a single column:
skip columns at or below target, otherwise apply the best adjacent-bin
merge. -/
noncomputable def mergeCol (nbins : ℕ) (others : List (List Int)) (col : List Int) :
    List Int :=
  if distinctCount col ≤ nbins then col
  else
    match selectBest ((sortedVals col).zip (sortedVals col).tail)
        (fun c => totalMI (mergeVals col c.1 c.2) others) with
    | none => col
    | some (lo, hi) => mergeVals col lo hi

/-- The inner `for j in range(n_vars)` loop: columns are processed left
to right and `bin_labels` is mutated in place, so each column sees the
already-merged prefix and the not-yet-processed suffix as "other"
columns. -/
noncomputable def passAux (nbins : ℕ) :
    List (List Int) → List (List Int) → List (List Int)
  | _, [] => []
  | before, col :: after =>
    let col2 := mergeCol nbins (before ++ after) col
    col2 :: passAux nbins (before ++ [col2]) after

/-- One full pass of the `while` loop body over all columns. -/
noncomputable def mergePass (nbins : ℕ) (cols : List (List Int)) : List (List Int) :=
  passAux nbins [] cols

/-- The `while np.any(n_bins_per_var > n_bins)` loop, with fuel. -/
noncomputable def mergeLoop : ℕ → ℕ → List (List Int) → List (List Int)
  | 0, _, cols => cols
  | fuel + 1, nbins, cols =>
    if cols.any fun c => nbins < distinctCount c then
      mergeLoop fuel nbins (mergePass nbins cols)
    else cols

/-- Step 3 relabeling of one column: map each surviving bin value to the
string of its rank among the sorted surviving values. -/
def relabelCol (col : List Int) : List String :=
  col.map fun v => toString ((sortedVals col).indexOf v)

/-- Model of `hartemink_discretize` (hartemink.py, lines 48-146), with
the step-1 initial discretization abstracted as `initStep`. -/
noncomputable def hartemink_discretize (initStep : ℕ → List ℝ → List Int)
    (df : List (List ℝ)) (n_bins : ℕ) (initial_bins : Option ℕ) :
    Except String (List (List String)) :=
  let ib := initial_bins.getD (n_bins * 3)
  if ib ≤ n_bins then
    Except.error
      s!"initial_bins ({ib}) must be strictly greater than n_bins ({n_bins})"
  else
    let bin_labels := df.map (initStep ib)
    let merged := mergeLoop ((bin_labels.map distinctCount).sum) n_bins bin_labels
    Except.ok (merged.map relabelCol)

/-- The distinct values of a mapped list are the image of the distinct
values. -/
lemma list_toFinset_map (l : List Int) (f : Int → Int) :
    (l.map f).toFinset = l.toFinset.image f := by
  ext z
  simp

/-- Merging a present bin value into another present value removes
exactly the merged value from the distinct-value set. -/
lemma toFinset_mergeVals (col : List Int) (lo hi : Int)
    (hlo : lo ∈ col.toFinset) (hne : lo ≠ hi) :
    (mergeVals col lo hi).toFinset = col.toFinset.erase hi := by
  unfold mergeVals
  rw [list_toFinset_map]
  ext z
  simp only [Finset.mem_image, Finset.mem_erase]
  constructor
  · rintro ⟨w, hw, rfl⟩
    by_cases hwh : w = hi
    · rw [if_pos hwh]; exact ⟨hne, hlo⟩
    · rw [if_neg hwh]; exact ⟨hwh, hw⟩
  · rintro ⟨hz, hzmem⟩
    exact ⟨z, hzmem, if_neg hz⟩

/-- Merging two distinct present bins lowers the distinct count by one. -/
lemma distinctCount_mergeVals (col : List Int) (lo hi : Int)
    (hlo : lo ∈ col.toFinset) (hhi : hi ∈ col.toFinset) (hne : lo ≠ hi) :
    distinctCount (mergeVals col lo hi) = distinctCount col - 1 := by
  unfold distinctCount
  rw [toFinset_mergeVals col lo hi hlo hne, Finset.card_erase_of_mem hhi]

/-- The scan step always yields a candidate. -/
lemma selectStep_isSome (score : Int × Int → ℝ)
    (acc : Option ((Int × Int) × ℝ)) (c : Int × Int) :
    (selectStep score acc c).isSome := by
  unfold selectStep
  cases acc with
  | none => rfl
  | some pm =>
    obtain ⟨p, m⟩ := pm
    dsimp only
    split <;> rfl

/-- The scan keeps a candidate once one is found. -/
lemma foldl_selectStep_isSome (score : Int × Int → ℝ) :
    ∀ (cands : List (Int × Int)) (acc : Option ((Int × Int) × ℝ)),
      acc.isSome → (cands.foldl (selectStep score) acc).isSome := by
  intro cands
  induction cands with
  | nil => intro acc h; exact h
  | cons c cs ih => intro acc _; exact ih _ (selectStep_isSome score acc c)

/-- On a nonempty candidate list a best pair is found. -/
lemma selectBest_isSome (cands : List (Int × Int)) (score : Int × Int → ℝ)
    (h : cands ≠ []) : (selectBest cands score).isSome := by
  unfold selectBest
  obtain ⟨c, cs, rfl⟩ := List.exists_cons_of_ne_nil h
  rw [List.foldl_cons]
  have hs := foldl_selectStep_isSome score cs (selectStep score none c)
    (selectStep_isSome score none c)
  rcases ho : cs.foldl (selectStep score) (selectStep score none c) with _ | v
  · rw [ho] at hs
    simp at hs
  · rfl

/-- The scan result is the accumulator's pair or one of the candidates. -/
lemma foldl_selectStep_mem (score : Int × Int → ℝ) :
    ∀ (cands : List (Int × Int)) (acc : Option ((Int × Int) × ℝ)) (p : Int × Int),
      (cands.foldl (selectStep score) acc).map Prod.fst = some p →
        acc.map Prod.fst = some p ∨ p ∈ cands := by
  intro cands
  induction cands with
  | nil => intro acc p h; exact Or.inl h
  | cons c cs ih =>
    intro acc p h
    rw [List.foldl_cons] at h
    rcases ih (selectStep score acc c) p h with h' | h'
    · unfold selectStep at h'
      cases acc with
      | none =>
        have hcp : c = p := by simpa using h'
        exact Or.inr (by rw [← hcp]; exact List.mem_cons_self c cs)
      | some pm =>
        obtain ⟨q, m⟩ := pm
        dsimp only at h'
        by_cases hlt : m < score c
        · rw [if_pos hlt] at h'
          have hcp : c = p := by simpa using h'
          exact Or.inr (by rw [← hcp]; exact List.mem_cons_self c cs)
        · rw [if_neg hlt] at h'
          exact Or.inl h'
    · exact Or.inr (List.mem_cons_of_mem c h')

/-- The selected best pair is one of the candidates. -/
lemma selectBest_mem (cands : List (Int × Int)) (score : Int × Int → ℝ)
    (p : Int × Int) (h : selectBest cands score = some p) : p ∈ cands := by
  unfold selectBest at h
  rcases foldl_selectStep_mem score cands none p h with h' | h'
  · exact absurd h' (by simp)
  · exact h'

/-- In the zip of a duplicate-free list with its tail, both components of
every pair are list members and they are distinct. -/
lemma zip_tail_facts : ∀ (l : List Int), l.Nodup →
    ∀ p ∈ l.zip l.tail, p.1 ∈ l ∧ p.2 ∈ l ∧ p.1 ≠ p.2 := by
  intro l
  induction l with
  | nil => intro _ p hp; simp at hp
  | cons a rest ih =>
    intro hnd p hp
    cases rest with
    | nil => simp at hp
    | cons b rest2 =>
      rw [List.tail_cons, List.zip_cons_cons] at hp
      rcases List.mem_cons.mp hp with rfl | hp
      · refine ⟨List.mem_cons_self _ _,
          List.mem_cons_of_mem _ (List.mem_cons_self _ _), ?_⟩
        intro hab
        have hab' : a = b := hab
        rw [List.nodup_cons] at hnd
        exact hnd.1 (by rw [hab']; exact List.mem_cons_self b rest2)
      · have hnd2 : (b :: rest2).Nodup := (List.nodup_cons.mp hnd).2
        have hfacts := ih hnd2 p (by rw [List.tail_cons]; exact hp)
        exact ⟨List.mem_cons_of_mem _ hfacts.1,
          List.mem_cons_of_mem _ hfacts.2.1, hfacts.2.2⟩

/-- A list of length at least two has at least one adjacent pair. -/
lemma zip_tail_ne_nil (l : List Int) (h : 2 ≤ l.length) : l.zip l.tail ≠ [] := by
  cases l with
  | nil => simp at h
  | cons a rest =>
    cases rest with
    | nil => simp at h
    | cons b t => simp [List.zip_cons_cons]

/-- Effect of one merge-loop visit on one column's distinct count:
unchanged at or below target, reduced by exactly one above target. -/
lemma distinctCount_mergeCol (nbins : ℕ) (h1 : 1 ≤ nbins)
    (others : List (List Int)) (col : List Int) :
    distinctCount (mergeCol nbins others col) =
      if distinctCount col ≤ nbins then distinctCount col
      else distinctCount col - 1 := by
  unfold mergeCol
  by_cases hle : distinctCount col ≤ nbins
  · rw [if_pos hle, if_pos hle]
  · rw [if_neg hle, if_neg hle]
    have h2 : 2 ≤ distinctCount col := by omega
    have hlen : 2 ≤ (sortedVals col).length := by
      unfold sortedVals distinctCount at *
      rw [Finset.length_sort]
      exact h2
    have hne := zip_tail_ne_nil _ hlen
    have hsome := selectBest_isSome ((sortedVals col).zip (sortedVals col).tail)
      (fun c => totalMI (mergeVals col c.1 c.2) others) hne
    obtain ⟨p, hp⟩ := Option.isSome_iff_exists.mp hsome
    obtain ⟨lo, hi⟩ := p
    simp only [hp]
    have hmem := selectBest_mem _ _ _ hp
    have hfacts := zip_tail_facts (sortedVals col) (Finset.sort_nodup _ _) (lo, hi) hmem
    have hlo : lo ∈ col.toFinset := by
      have hm := hfacts.1
      unfold sortedVals at hm
      rwa [Finset.mem_sort] at hm
    have hhi : hi ∈ col.toFinset := by
      have hm := hfacts.2.1
      unfold sortedVals at hm
      rwa [Finset.mem_sort] at hm
    exact distinctCount_mergeVals col lo hi hlo hhi hfacts.2.2

/-- The distinct counts after one full pass, column by column: the merge
choice depends on the other columns, but the count effect does not. -/
lemma passAux_counts (nbins : ℕ) (h1 : 1 ≤ nbins) :
    ∀ (cols before : List (List Int)),
      (passAux nbins before cols).map distinctCount =
        cols.map fun c =>
          if distinctCount c ≤ nbins then distinctCount c
          else distinctCount c - 1 := by
  intro cols
  induction cols with
  | nil => intro before; rfl
  | cons col after ih =>
    intro before
    simp only [passAux, List.map_cons]
    rw [distinctCount_mergeCol nbins h1 (before ++ after) col, ih]

/-- The distinct counts after one pass of the while-loop body. -/
lemma mergePass_counts (nbins : ℕ) (h1 : 1 ≤ nbins) (cols : List (List Int)) :
    (mergePass nbins cols).map distinctCount =
      cols.map fun c =>
        if distinctCount c ≤ nbins then distinctCount c
        else distinctCount c - 1 :=
  passAux_counts nbins h1 cols []

/-- Total excess of the columns' distinct counts over the target. -/
def excess (nbins : ℕ) (cols : List (List Int)) : ℕ :=
  (cols.map fun c => distinctCount c - nbins).sum

/-- Abstract form of the strict decrease of the excess during a pass. -/
lemma sum_sub_lt (nbins : ℕ) (_h1 : 1 ≤ nbins) :
    ∀ ks : List ℕ, (ks.any fun k => nbins < k) = true →
      ((ks.map fun k => (if k ≤ nbins then k else k - 1) - nbins).sum <
        (ks.map fun k => k - nbins).sum) := by
  intro ks
  induction ks with
  | nil => intro h; simp at h
  | cons k ks ih =>
    intro h
    simp only [List.map_cons, List.sum_cons]
    rw [List.any_cons] at h
    have hle : ∀ j ∈ ks, (if j ≤ nbins then j else j - 1) - nbins ≤ j - nbins := by
      intro j _
      split <;> omega
    have hsle := List.sum_le_sum hle
    rcases Bool.or_eq_true_iff.mp h with hc | hcs
    · have hk : nbins < k := by simpa using hc
      have hlt : (if k ≤ nbins then k else k - 1) - nbins < k - nbins := by
        rw [if_neg (by omega)]
        omega
      omega
    · have hind := ih hcs
      have hk1 : (if k ≤ nbins then k else k - 1) - nbins ≤ k - nbins := by
        split <;> omega
      omega

/-- Each pass with at least one over-target column strictly decreases the
total excess. -/
lemma excess_mergePass_lt (nbins : ℕ) (h1 : 1 ≤ nbins) (cols : List (List Int))
    (hover : (cols.any fun c => nbins < distinctCount c) = true) :
    excess nbins (mergePass nbins cols) < excess nbins cols := by
  have hcounts := mergePass_counts nbins h1 cols
  have hl : excess nbins (mergePass nbins cols) =
      (((mergePass nbins cols).map distinctCount).map fun k => k - nbins).sum := by
    unfold excess
    rw [List.map_map]
    rfl
  have hr : excess nbins cols =
      ((cols.map distinctCount).map fun k => k - nbins).sum := by
    unfold excess
    rw [List.map_map]
    rfl
  rw [hl, hr, hcounts]
  have hmap : (cols.map fun c =>
      if distinctCount c ≤ nbins then distinctCount c else distinctCount c - 1) =
      (cols.map distinctCount).map fun k => if k ≤ nbins then k else k - 1 := by
    rw [List.map_map]
    rfl
  rw [hmap]
  have hany : ((cols.map distinctCount).any fun k => nbins < k) = true := by
    rw [List.any_eq_true] at hover ⊢
    obtain ⟨c, hc, hcp⟩ := hover
    exact ⟨distinctCount c, List.mem_map_of_mem _ hc, hcp⟩
  have hmain := sum_sub_lt nbins h1 (cols.map distinctCount) hany
  rw [List.map_map]
  simpa [Function.comp_def] using hmain

/-- With enough fuel the merge loop drives every column's distinct count
to the minimum of its initial count and the target. -/
lemma mergeLoop_counts (nbins : ℕ) (h1 : 1 ≤ nbins) :
    ∀ (fuel : ℕ) (cols : List (List Int)), excess nbins cols ≤ fuel →
      (mergeLoop fuel nbins cols).map distinctCount =
        cols.map fun c => min (distinctCount c) nbins := by
  intro fuel
  induction fuel with
  | zero =>
    intro cols h
    have hall : ∀ c ∈ cols, distinctCount c ≤ nbins := by
      intro c hc
      have h0 : (cols.map fun c => distinctCount c - nbins).sum = 0 := Nat.le_zero.mp h
      have hz := List.sum_eq_zero_iff.mp h0 (distinctCount c - nbins)
        (List.mem_map_of_mem _ hc)
      omega
    simp only [mergeLoop]
    exact List.map_congr_left fun c hc => (min_eq_left (hall c hc)).symm
  | succ fuel ih =>
    intro cols h
    simp only [mergeLoop]
    by_cases hover : (cols.any fun c => nbins < distinctCount c) = true
    · rw [if_pos hover]
      have hlt := excess_mergePass_lt nbins h1 cols hover
      have hfuel : excess nbins (mergePass nbins cols) ≤ fuel := by omega
      rw [ih (mergePass nbins cols) hfuel]
      have hstep : (mergePass nbins cols).map (fun c => min (distinctCount c) nbins) =
          ((mergePass nbins cols).map distinctCount).map fun k => min k nbins := by
        rw [List.map_map]
        rfl
      rw [hstep, mergePass_counts nbins h1 cols, List.map_map]
      refine List.map_congr_left fun c _ => ?_
      simp only [Function.comp_apply]
      split <;> omega
    · rw [if_neg hover]
      have hall : ∀ c ∈ cols, distinctCount c ≤ nbins := by
        intro c hc
        by_contra hcon
        exact hover (List.any_eq_true.mpr ⟨c, hc, by simpa using hcon⟩)
      exact List.map_congr_left fun c hc => (min_eq_left (hall c hc)).symm

/-- The sorted distinct values enumerate exactly the distinct count. -/
lemma sortedVals_length (col : List Int) :
    (sortedVals col).length = distinctCount col :=
  Finset.length_sort _

/-- The relabeling index map sends the distinct values of a column onto
an initial segment of the naturals, as the dict
`{v: str(i) for i, v in enumerate(unique_sorted)}` does. -/
lemma indexOf_image_sortedVals (col : List Int) :
    (col.toFinset.image fun v => (sortedVals col).indexOf v) =
      Finset.range (distinctCount col) := by
  ext i
  simp only [Finset.mem_image, Finset.mem_range]
  constructor
  · rintro ⟨v, hv, rfl⟩
    have hvs : v ∈ sortedVals col := by
      unfold sortedVals
      rw [Finset.mem_sort]
      exact hv
    have hlt := List.indexOf_lt_length.mpr hvs
    rwa [sortedVals_length col] at hlt
  · intro hi
    have hi' : i < (sortedVals col).length := by
      rw [sortedVals_length col]
      exact hi
    refine ⟨(sortedVals col).get ⟨i, hi'⟩, ?_, ?_⟩
    · have hm := List.get_mem (sortedVals col) i hi'
      unfold sortedVals at hm ⊢
      rwa [Finset.mem_sort] at hm
    · rw [List.get_eq_getElem]
      exact List.indexOf_getElem (Finset.sort_nodup _ _) i hi'

/-- The set of labels produced by relabeling a column. -/
lemma relabelCol_toFinset (col : List Int) :
    (relabelCol col).toFinset =
      (Finset.range (distinctCount col)).image fun i => toString i := by
  unfold relabelCol
  have hmap : (col.map fun v => toString ((sortedVals col).indexOf v)).toFinset =
      col.toFinset.image fun v => toString ((sortedVals col).indexOf v) := by
    ext z
    simp
  rw [hmap, ← indexOf_image_sortedVals col, Finset.image_image]
  rfl

/-- Labels are assigned in increasing original-bin-value order: a
smaller surviving bin value gets a smaller index. -/
lemma indexOf_sortedVals_strictMono (col : List Int) (v w : Int)
    (hv : v ∈ col.toFinset) (hw : w ∈ col.toFinset) (hvw : v < w) :
    (sortedVals col).indexOf v < (sortedVals col).indexOf w := by
  have hvs : v ∈ sortedVals col := by
    unfold sortedVals
    rw [Finset.mem_sort]
    exact hv
  have hws : w ∈ sortedVals col := by
    unfold sortedVals
    rw [Finset.mem_sort]
    exact hw
  have hiv := List.indexOf_lt_length.mpr hvs
  have hiw := List.indexOf_lt_length.mpr hws
  have hsorted : (sortedVals col).Sorted (· < ·) := Finset.sort_sorted_lt _
  by_contra hcon
  push_neg at hcon
  rcases Nat.lt_or_ge ((sortedVals col).indexOf w) ((sortedVals col).indexOf v)
    with hlt | hge
  · have hrel := List.pairwise_iff_get.mp hsorted
      ⟨(sortedVals col).indexOf w, hiw⟩ ⟨(sortedVals col).indexOf v, hiv⟩ hlt
    rw [List.indexOf_get hiw, List.indexOf_get hiv] at hrel
    exact absurd hrel (lt_asymm hvw)
  · have heq : (sortedVals col).indexOf v = (sortedVals col).indexOf w := by omega
    have hvw2 : v = w := by
      have h1 := List.indexOf_get hiv
      have h2 := List.indexOf_get hiw
      rw [← h1, ← h2]
      congr 1
      exact Fin.ext heq
    exact absurd hvw2 (ne_of_lt hvw)

/-! Injectivity of the decimal rendering `str(i)` of a natural number,
proved through an explicit decoding of the digit string. -/

/-- Numeric value of a decimal digit character. -/
def charVal (c : Char) : ℕ :=
  c.toNat - 48

/-- Decode a decimal digit string, most significant digit first. -/
def decodeDigits (l : List Char) : ℕ :=
  l.foldl (fun a c => 10 * a + charVal c) 0

/-- The decoding fold is linear in its accumulator. -/
lemma foldl_decode_linear :
    ∀ (l : List Char) (a : ℕ),
      l.foldl (fun a c => 10 * a + charVal c) a =
        a * 10 ^ l.length + decodeDigits l := by
  intro l
  induction l with
  | nil => intro a; simp [decodeDigits]
  | cons c t ih =>
    intro a
    rw [List.foldl_cons, ih (10 * a + charVal c)]
    have h2 : decodeDigits (c :: t) = charVal c * 10 ^ t.length + decodeDigits t := by
      unfold decodeDigits
      rw [List.foldl_cons, ih (10 * 0 + charVal c)]
      norm_num
      rfl
    rw [h2, List.length_cons]
    ring

/-- Decoding inverts `Nat.digitChar` on decimal digits. -/
lemma charVal_digitChar (d : ℕ) (h : d < 10) :
    charVal (Nat.digitChar d) = d := by
  interval_cases d <;> rfl

/-- Decoding inverts the digit-string builder underlying `Nat.repr`. -/
lemma decode_toDigitsCore :
    ∀ (fuel n : ℕ) (ds : List Char), n < fuel →
      decodeDigits (Nat.toDigitsCore 10 fuel n ds) =
        n * 10 ^ ds.length + decodeDigits ds := by
  intro fuel
  induction fuel with
  | zero => intro n ds h; exact absurd h (Nat.not_lt_zero n)
  | succ fuel ih =>
    intro n ds h
    simp only [Nat.toDigitsCore]
    by_cases hdiv : n / 10 = 0
    · rw [if_pos hdiv]
      have hn : n < 10 := by omega
      unfold decodeDigits
      rw [List.foldl_cons, foldl_decode_linear]
      rw [charVal_digitChar (n % 10) (Nat.mod_lt n (by norm_num))]
      have hmod : n % 10 = n := by omega
      rw [hmod]
      norm_num
      rfl
    · rw [if_neg hdiv]
      have hlt : n / 10 < fuel := by omega
      rw [ih (n / 10) (Nat.digitChar (n % 10) :: ds) hlt]
      have hd : decodeDigits (Nat.digitChar (n % 10) :: ds) =
          n % 10 * 10 ^ ds.length + decodeDigits ds := by
        unfold decodeDigits
        rw [List.foldl_cons, foldl_decode_linear]
        rw [charVal_digitChar (n % 10) (Nat.mod_lt n (by omega))]
        norm_num
        rfl
      rw [hd, List.length_cons, pow_succ]
      have hexp : n * 10 ^ ds.length =
          n / 10 * (10 ^ ds.length * 10) + n % 10 * 10 ^ ds.length := by
        conv_lhs => rw [← Nat.div_add_mod n 10]
        ring
      rw [hexp]
      ring

/-- Decoding inverts `Nat.repr`. -/
lemma decodeDigits_repr (n : ℕ) : decodeDigits (Nat.repr n).data = n := by
  have hdata : (Nat.repr n).data = Nat.toDigitsCore 10 (n + 1) n [] := rfl
  rw [hdata, decode_toDigitsCore (n + 1) n [] (Nat.lt_succ_self n)]
  simp [decodeDigits]

/-- Two distinct naturals have distinct decimal string renderings. -/
lemma toString_nat_injective : Function.Injective fun n : ℕ => toString n := by
  intro m n h
  have hrepr : Nat.repr m = Nat.repr n := h
  have hdec := congrArg (fun s => decodeDigits s.data) hrepr
  simpa [decodeDigits_repr] using hdec

/-- C1: `hartemink_discretize` rejects `initial_bins ≤ n_bins` with a
configuration error (and defaults `initial_bins` to `3 * n_bins`);
otherwise, for `n_bins ≥ 1`, whenever the initial discretization leaves
every column with at least `n_bins` distinct bins, every output column
carries exactly `n_bins` distinct string labels — the set
`{str(0), ..., str(n_bins - 1)}` — assigned in increasing
original-bin-value order. -/
theorem hartemink_discretize_spec :
    (∀ (initStep : ℕ → List ℝ → List Int) (df : List (List ℝ)) (n_bins ib : ℕ),
      ib ≤ n_bins →
        hartemink_discretize initStep df n_bins (some ib) =
          Except.error
            s!"initial_bins ({ib}) must be strictly greater than n_bins ({n_bins})") ∧
    (∀ (initStep : ℕ → List ℝ → List Int) (df : List (List ℝ)) (n_bins : ℕ),
      hartemink_discretize initStep df n_bins none =
        hartemink_discretize initStep df n_bins (some (n_bins * 3))) ∧
    (∀ (initStep : ℕ → List ℝ → List Int) (df : List (List ℝ)) (n_bins ib : ℕ),
      1 ≤ n_bins → n_bins < ib →
      (∀ col ∈ df.map (initStep ib), n_bins ≤ distinctCount col) →
      ∃ merged : List (List Int),
        hartemink_discretize initStep df n_bins (some ib) =
          Except.ok (merged.map relabelCol) ∧
        merged.length = df.length ∧
        ∀ mc ∈ merged,
          distinctCount mc = n_bins ∧
          (relabelCol mc).toFinset =
            (Finset.range n_bins).image (fun i => toString i) ∧
          (relabelCol mc).toFinset.card = n_bins ∧
          ∀ v ∈ mc, ∀ w ∈ mc, v < w →
            (sortedVals mc).indexOf v < (sortedVals mc).indexOf w) := by
  refine ⟨?_, ?_, ?_⟩
  · intro initStep df n_bins ib h
    simp [hartemink_discretize, h]
  · intro initStep df n_bins
    rfl
  · intro initStep df n_bins ib h1 h2 h3
    have hfuel : excess n_bins (df.map (initStep ib)) ≤
        ((df.map (initStep ib)).map distinctCount).sum := by
      unfold excess
      have hlist : ∀ c ∈ df.map (initStep ib),
          distinctCount c - n_bins ≤ distinctCount c := fun c _ => Nat.sub_le _ _
      exact List.sum_le_sum hlist
    have hcounts := mergeLoop_counts n_bins h1
      (((df.map (initStep ib)).map distinctCount).sum) (df.map (initStep ib)) hfuel
    refine ⟨mergeLoop (((df.map (initStep ib)).map distinctCount).sum) n_bins
      (df.map (initStep ib)), ?_, ?_, ?_⟩
    · simp only [hartemink_discretize, Option.getD_some]
      rw [if_neg (not_le.mpr h2)]
    · have hlen := congrArg List.length hcounts
      simpa using hlen
    · intro mc hmc
      have hmem : distinctCount mc ∈
          (mergeLoop (((df.map (initStep ib)).map distinctCount).sum) n_bins
            (df.map (initStep ib))).map distinctCount :=
        List.mem_map_of_mem _ hmc
      rw [hcounts] at hmem
      obtain ⟨c, hc, hcc⟩ := List.mem_map.mp hmem
      have hcn : distinctCount mc = n_bins := by
        have hcb := h3 c hc
        omega
      refine ⟨hcn, ?_, ?_, ?_⟩
      · rw [relabelCol_toFinset, hcn]
      · rw [relabelCol_toFinset, hcn,
          Finset.card_image_of_injective _ toString_nat_injective,
          Finset.card_range]
      · intro v hv w hw hvw
        exact indexOf_sortedVals_strictMono mc v w (List.mem_toFinset.mpr hv)
          (List.mem_toFinset.mpr hw) hvw

/-- Witness for `hartemink_discretize_spec`: a single column whose
initial labels are `[5, 5]` (one distinct bin, equal to the target
`n_bins = 1`), plus the rejection of `initial_bins = 1 ≤ n_bins = 1`;
the concrete run relabels the surviving bin to `"0"`. -/
theorem hartemink_discretize_spec_witness :
    (∃ merged : List (List Int),
      hartemink_discretize (fun _ _ => [5, 5]) [[0]] 1 (some 3) =
        Except.ok (merged.map relabelCol) ∧
      merged.length = ([[0]] : List (List ℝ)).length ∧
      ∀ mc ∈ merged,
        distinctCount mc = 1 ∧
        (relabelCol mc).toFinset =
          (Finset.range 1).image (fun i => toString i) ∧
        (relabelCol mc).toFinset.card = 1 ∧
        ∀ v ∈ mc, ∀ w ∈ mc, v < w →
          (sortedVals mc).indexOf v < (sortedVals mc).indexOf w) ∧
    hartemink_discretize (fun _ _ => [5, 5]) [[0]] 1 (some 1) =
      Except.error "initial_bins (1) must be strictly greater than n_bins (1)" ∧
    hartemink_discretize (fun _ _ => [5, 5]) [[0]] 1 (some 3) =
      Except.ok [["0", "0"]] := by
  refine ⟨hartemink_discretize_spec.2.2 (fun _ _ => [5, 5]) [[0]] 1 3
      (by norm_num) (by norm_num) (by decide),
    hartemink_discretize_spec.1 (fun _ _ => [5, 5]) [[0]] 1 1 (le_refl 1), ?_⟩
  have hdc : distinctCount [5, 5] = 1 := by decide
  have hsv : sortedVals [5, 5] = [5] := by
    unfold sortedVals
    have h5 : ([5, 5] : List Int).toFinset = {5} := by decide
    rw [h5, Finset.sort_singleton]
  have hrel : relabelCol [5, 5] = ["0", "0"] := by
    unfold relabelCol
    rw [hsv]
    rfl
  have hml : mergeLoop 1 1 [[5, 5]] = [[5, 5]] := by
    simp only [mergeLoop, List.any_cons, List.any_nil, hdc]
    norm_num
  simp only [hartemink_discretize, Option.getD_some, List.map_cons, List.map_nil,
    List.sum_cons, List.sum_nil, hdc]
  norm_num
  rw [hml]
  simp [hrel]

end Cbnsl
